import Mathlib

/-!
Verification of the midi-interceptor routing core.

The development shallowly embeds the JavaScript sources:
* `own-modules/utils.js` — `buildSplitTable`, `transformMidiSrc`,
  `wildcardToRegex`, `isExcluded`, `cleanup`;
* `own-modules/main.js` — `execute` (output resolution, input admission).

JavaScript numbers are modelled as `Int` (every value the program handles
is an integer: MIDI bytes, note numbers, channels).  A thrown exception is
modelled as `Option.none`.  Loosely-typed JavaScript values (the parsed
JSON configuration) are modelled by the inductive `JSVal`.
-/

/-- A loosely typed JavaScript value, as produced by JSON parsing of the
configuration.  Objects carry an association list of named fields. -/
inductive JSVal where
  | vnull
  | vundef
  | vbool (b : Bool)
  | vnum (n : Int)
  | vstr (s : String)
  | varr (elems : List JSVal)
  | vobj (fields : List (String × JSVal))

/-- Property access on `null` or `undefined` throws a TypeError in
JavaScript; these are the only values of `JSVal` on which the embedded
code's field accesses fail. -/
def JSVal.isNullish : JSVal → Bool
  | JSVal.vnull => true
  | JSVal.vundef => true
  | _ => false

/-- Total field access, used only on non-nullish values: an object yields
the field's value (or `undefined` when absent); any other (primitive or
array) value has none of the fields the program reads, hence yields
`undefined`. -/
def getFieldT (v : JSVal) (key : String) : JSVal :=
  match v with
  | JSVal.vobj fields => (fields.lookup key).getD JSVal.vundef
  | _ => JSVal.vundef

/-- Strict string-equality test `v === "s"` against a string literal. -/
def JSVal.isStr : JSVal → String → Bool
  | JSVal.vstr t, s => t == s
  | _, _ => false

/-- The compiled split table of `utils.js`: a JavaScript object mapping
MIDI note numbers to channels, modelled as a partial map on `Int`.
`splitTable.hasOwnProperty(n)` is `(t n).isSome`; `splitTable[n]` is the
carried value. -/
def SplitTable : Type := Int → Option Int

/-- The empty split table (`const splitTable = {}`). -/
def emptyTable : SplitTable := fun _ => none

/-- `splitTable[n] = c`: point update of the table object. -/
def tset (t : SplitTable) (n c : Int) : SplitTable :=
  fun m => if m = n then some c else t m

/-- The range loop of `buildSplitTable`:
`for (let midi = midiFrom; midi <= midiTo; midi++) splitTable[midi] = channel`. -/
def setRange (t : SplitTable) (lo hi c : Int) : SplitTable :=
  if lo ≤ hi then setRange (tset t lo c) (lo + 1) hi c else t
termination_by (hi + 1 - lo).toNat
decreasing_by omega

/-- The enumeration loop of `buildSplitTable`:
`midi.forEach((midiValue) => splitTable[midiValue] = channel)`.  Only the
numeric elements write an entry; validation guarantees all elements are
numeric before this runs. -/
def setEnum (t : SplitTable) (vals : List JSVal) (c : Int) : SplitTable :=
  vals.foldl
    (fun acc v =>
      match v with
      | JSVal.vnum n => tset acc n c
      | _ => acc)
    t

/-- The element test of the enumeration validation:
`typeof midiValue === "number" && midiValue >= 0 && midiValue <= 127`. -/
def isValidMidiNum : JSVal → Bool
  | JSVal.vnum n => decide (0 ≤ n) && decide (n ≤ 127)
  | _ => false

/-- Processing of one split definition inside the `forEach` body of
`buildSplitTable`, for a non-nullish element: validate and apply a
`range` entry, validate and apply an `enumeration` entry, or skip with a
diagnostic (unknown type, invalid fields or ranges — diagnostics carry no
data and are omitted from the model). -/
def applyDefn (t : SplitTable) (d : JSVal) : SplitTable :=
  if JSVal.isStr (getFieldT d "type") "range" then
    match getFieldT d "midiFrom", getFieldT d "midiTo", getFieldT d "channel" with
    | JSVal.vnum midiFrom, JSVal.vnum midiTo, JSVal.vnum channel =>
      if 0 ≤ midiFrom ∧ midiFrom ≤ 127 ∧ 0 ≤ midiTo ∧ midiTo ≤ 127 ∧
          1 ≤ channel ∧ channel ≤ 16 ∧ midiFrom ≤ midiTo then
        setRange t midiFrom midiTo channel
      else t
    | _, _, _ => t
  else if JSVal.isStr (getFieldT d "type") "enumeration" then
    match getFieldT d "midi", getFieldT d "channel" with
    | JSVal.varr midi, JSVal.vnum channel =>
      if midi.all isValidMidiNum ∧ 1 ≤ channel ∧ channel ≤ 16 then
        setEnum t midi channel
      else t
    | _, _ => t
  else t

/-- One iteration of the `forEach` of `buildSplitTable`.  Reading
`definition.type` on a `null`/`undefined` element throws a TypeError
(modelled as `none`); every other element is handled by `applyDefn`
without any possibility of failure. -/
def processDef (t : SplitTable) (d : JSVal) : Option SplitTable :=
  if d.isNullish then none else some (applyDefn t d)

/-- `buildSplitTable` of `utils.js`: a non-array or empty input yields the
empty table (with a warning); otherwise the definitions are folded over in
list order, each one validated and applied individually. -/
def buildSplitTable (input : JSVal) : Option SplitTable :=
  match input with
  | JSVal.varr defs =>
    if defs.isEmpty then some emptyTable
    else defs.foldlM processDef emptyTable
  | _ => some emptyTable

/-- `transformMidiSrc` of `utils.js`.  The incoming message is the triple
`(status, note, velocity)`; the `splitTable &&` truthiness guard of the
source is always satisfied because the captured table is an object. -/
def transformMidiSrc (splitTable : SplitTable) (deltaTime : Int)
    (message : Int × Int × Int) : Int × Int × Int :=
  let status := message.1
  let note := message.2.1
  let velocity := message.2.2
  let isGenuineNoteOff := decide (128 ≤ status) && decide (status ≤ 143)
  let isNoteOn := decide (144 ≤ status) && decide (status ≤ 159)
  let isFakeNoteOff := isNoteOn && decide (velocity = 0)
  let mustSplitByChannel := isNoteOn || isFakeNoteOff || isGenuineNoteOff
  if mustSplitByChannel then
    match splitTable note with
    | some channel => (Int.lor (Int.land status 0xf0) (channel - 1), note, velocity)
    | none => message
  else message

/-- Structured description of a well-formed split definition, used to
state the properties of the compiler over valid inputs. -/
inductive DefSpec where
  | range (midiFrom midiTo channel : Int)
  | enum (midi : List Int) (channel : Int)

/-- The JSON object a `DefSpec` denotes. -/
def DefSpec.toJS : DefSpec → JSVal
  | DefSpec.range a b c =>
    JSVal.vobj [("type", JSVal.vstr "range"), ("midiFrom", JSVal.vnum a),
      ("midiTo", JSVal.vnum b), ("channel", JSVal.vnum c)]
  | DefSpec.enum ms c =>
    JSVal.vobj [("type", JSVal.vstr "enumeration"),
      ("midi", JSVal.varr (ms.map JSVal.vnum)), ("channel", JSVal.vnum c)]

/-- Field validity of a split definition, per §3 of the design. -/
def DefSpec.valid : DefSpec → Prop
  | DefSpec.range a b c => 0 ≤ a ∧ a ≤ b ∧ b ≤ 127 ∧ 1 ≤ c ∧ c ≤ 16
  | DefSpec.enum ms c => (∀ m ∈ ms, 0 ≤ m ∧ m ≤ 127) ∧ 1 ≤ c ∧ c ≤ 16

/-- A definition covers a note when the note falls in its range or its
enumeration list. -/
def DefSpec.covers : DefSpec → Int → Prop
  | DefSpec.range a b _, n => a ≤ n ∧ n ≤ b
  | DefSpec.enum ms _, n => n ∈ ms

/-- Destination channel of a split definition. -/
def DefSpec.channel : DefSpec → Int
  | DefSpec.range _ _ c => c
  | DefSpec.enum _ c => c

/-- Every channel stored in a table lies in the MIDI channel range 1–16. -/
def TableChansValid (t : SplitTable) : Prop :=
  ∀ n c, t n = some c → 1 ≤ c ∧ c ≤ 16

/-- A token of the regular-expression fragment `wildcardToRegex` emits:
a literal character (possibly backslash-escaped in the source string), a
`.` (one character), or a `.*` (any sequence). -/
inductive RTok where
  | lit (c : Char)
  | anyOne
  | anyMany
deriving DecidableEq

/-- The character class escaped by `wildcardToRegex`:
`/[.+^$\x7b\x7d()|[\]\\]/g` — every character with a structural regex
meaning except `?` and `*`. -/
def specials : List Char :=
  ['.', '+', '^', '$', '\x7b', '\x7d', '(', ')', '|', '[', ']', '\\']

/-- `pattern.replace(/[.+^$\x7b\x7d()|[\]\\]/g, "\\$&")`. -/
def escapeSpecials (cs : List Char) : List Char :=
  cs.flatMap fun c => if c ∈ specials then ['\\', c] else [c]

/-- `.replace(/\?/g, ".")`. -/
def replaceQ (cs : List Char) : List Char :=
  cs.map fun c => if c = '?' then '.' else c

/-- `.replace(/\*/g, ".*")`. -/
def replaceStar (cs : List Char) : List Char :=
  cs.flatMap fun c => if c = '*' then ['.', '*'] else [c]

/-- Parse the regex source string built by `wildcardToRegex` into tokens:
a backslash escapes the next character into a literal, `.*` is a star of
dot, a lone `.` is a single-character wildcard, anything else is literal.
This grammar covers exactly the strings the escape/replace pipeline can
produce (a dangling final backslash cannot occur and parses to nothing). -/
def parseRegex : List Char → List RTok
  | [] => []
  | c :: rest =>
    if c = '\\' then
      match rest with
      | [] => []
      | d :: rest2 => RTok.lit d :: parseRegex rest2
    else if c = '.' then
      match rest with
      | [] => [RTok.anyOne]
      | d :: rest2 =>
        if d = '*' then RTok.anyMany :: parseRegex rest2
        else RTok.anyOne :: parseRegex (d :: rest2)
    else RTok.lit c :: parseRegex rest

/-- JavaScript's `.` (without the `s` flag) matches any character except a
line terminator (LF, CR, LINE SEPARATOR, PARAGRAPH SEPARATOR). -/
def isDotChar (c : Char) : Bool :=
  !(c == '\n' || c == '\r' || c == '\u2028' || c == '\u2029')

/-- Backtracking search for `.*` followed by the rest of the pattern:
either the star matches nothing here, or it consumes one more
(non-line-terminator) character and the search continues. -/
def rmatchMany (f : List Char → Bool) : List Char → Bool
  | [] => f []
  | d :: ds => f (d :: ds) || (isDotChar d && rmatchMany f ds)

/-- Anchored matching of a token sequence against a candidate, i.e. the
semantics of `new RegExp("^" ++ src ++ "$").test(candidate)` for the
fragment produced by `wildcardToRegex`: the whole candidate must be
consumed. -/
def rmatchB : List RTok → List Char → Bool
  | [], cs => cs.isEmpty
  | RTok.lit c :: ts, cs =>
    match cs with
    | [] => false
    | d :: ds => c == d && rmatchB ts ds
  | RTok.anyOne :: ts, cs =>
    match cs with
    | [] => false
    | d :: ds => isDotChar d && rmatchB ts ds
  | RTok.anyMany :: ts, cs => rmatchMany (rmatchB ts) cs

/-- `wildcardToRegex` of `utils.js`: escape the special characters, map
`?` to `.` and `*` to `.*`, and anchor with `^`/`$` (the anchoring is
realised by the full-match semantics of `rmatchB`). -/
def wildcardToRegex (pattern : String) : List RTok :=
  parseRegex (replaceStar (replaceQ (escapeSpecials pattern.toList)))

/-- `regex.test(s)` for the compiled anchored pattern. -/
def regexTest (toks : List RTok) (s : String) : Bool :=
  rmatchB toks s.toList

/-- The wildcard matcher of §4.1: `wildcardToRegex(pattern).test(candidate)`. -/
def wildcardMatches (pattern candidate : String) : Bool :=
  regexTest (wildcardToRegex pattern) candidate

/-- `isExcluded` of `utils.js`:
`exclusions.some((pattern) => wildcardToRegex(pattern).test(portName))`. -/
def isExcluded (portName : String) (exclusions : List String) : Bool :=
  exclusions.any fun pattern => regexTest (wildcardToRegex pattern) portName

/-- The input-port admission decision of the engine.  `main.js` calls
`setupMidiInput(i, output, vOutPortName, ...inputPortsExclusions)`, and
`setupMidiInput` returns `null` (does not attach) exactly when
`isExcluded(portName, exclusions)` holds for the exclusion list with the
virtual output name prepended. -/
def shouldAttach (portName vOutPortName : String)
    (exclusionPatterns : List String) : Bool :=
  !(isExcluded portName (vOutPortName :: exclusionPatterns))

/-- Single-character wildcard semantics written directly from the words
of §4.1 (as amended for JavaScript's `.`): `?` matches exactly one
non-line-terminator character, `*` matches zero or more such characters,
every other character matches itself only, and the whole candidate must
be matched.  This is the reference definition the compiled matcher is
proved to coincide with. -/
def specWildMatch : List Char → List Char → Bool
  | [], cs => cs.isEmpty
  | p :: ps, cs =>
    if p = '?' then
      match cs with
      | [] => false
      | c :: cs' => isDotChar c && specWildMatch ps cs'
    else if p = '*' then
      rmatchMany (specWildMatch ps) cs
    else
      match cs with
      | [] => false
      | c :: cs' => p == c && specWildMatch ps cs'

/-- The token a pattern character compiles to. -/
def tokOf (c : Char) : RTok :=
  if c = '?' then RTok.anyOne else if c = '*' then RTok.anyMany else RTok.lit c

/-- The characters a single pattern character contributes to the regex
source string built by the escape/replace pipeline. -/
def encodeChar (c : Char) : List Char :=
  if c ∈ specials then ['\\', c]
  else if c = '?' then ['.']
  else if c = '*' then ['.', '*']
  else [c]

/-- The MIDI ports the transport reports, by enumeration order. -/
structure MidiEnv where
  outputPorts : List String
  inputPorts : List String

/-- The configuration fields `execute` reads. -/
structure Config where
  virtualOutputName : String
  exclusionsList : List String

/-- A port-opening side effect of `execute`, in program order. -/
inductive PortAction where
  | openOutput (i : Nat)
  | openInput (i : Nat)
deriving DecidableEq

/-- How `execute` ends.  `exited c` is `process.exit(c)`; `threw` is an
uncaught TypeError: after opening the output port, `execute` calls
`setOutput(output)`, but `setOutput` — imported by `main.js` from
`./utils` — is not among `utils.js`'s exports, so the call throws and the
input-attachment loop below it is never reached. -/
inductive ExecOutcome where
  | exited (code : Nat)
  | threw
  | returned (code : Nat)
deriving DecidableEq

/-- The output-port search loop of `execute`:
`for (i...) if (outPortName == vOutPortName) vOutPortIndex = i` — there is
no `break`, so a later match overwrites an earlier one. -/
def findOutputIndexAux (target : String) (i : Nat) (acc : Option Nat) :
    List String → Option Nat
  | [] => acc
  | name :: rest =>
    findOutputIndexAux target (i + 1)
      (if name == target then some i else acc) rest

/-- Resolution of `vOutPortIndex` over the whole output-port list. -/
def findOutputIndex (names : List String) (target : String) : Option Nat :=
  findOutputIndexAux target 0 none names

/-- `execute` of `main.js`, projected onto its port actions and outcome:
if no output port carries the configured name, `process.exit(2)` runs and
nothing is ever opened; otherwise the output port is opened, after which
the undefined `setOutput` import throws (see `ExecOutcome.threw`), so no
input port is opened either. -/
def execute (env : MidiEnv) (cfg : Config) : List PortAction × ExecOutcome :=
  match findOutputIndex env.outputPorts cfg.virtualOutputName with
  | none => ([], ExecOutcome.exited 2)
  | some i => ([PortAction.openOutput i], ExecOutcome.threw)

/-- The module-level state of `utils.js` that `cleanup` reads: the
shutdown-once flag and the attached input instances (identified by port
index).  `utils.js` declares no `output` binding. -/
structure CleanupState where
  cleanupCalled : Bool
  inputs : List Nat
deriving DecidableEq

/-- How one call to `cleanup` ends.  `skipped`: the guard
`if (cleanupCalled) return` fired, nothing was done.  `refError l`: the
input ports `l` were closed in order, then `output.closePort()` threw a
ReferenceError — `output` is a free identifier in `utils.js` (no
module-level declaration, and the `setOutput` setter `main.js` imports is
not exported), so the output port is never closed and `process.exit()` is
never reached. -/
inductive CleanupOutcome where
  | skipped
  | refError (closedInputs : List Nat)
deriving DecidableEq

/-- `cleanup` of `utils.js` over the module state. -/
def cleanup (st : CleanupState) : CleanupState × CleanupOutcome :=
  if st.cleanupCalled then (st, CleanupOutcome.skipped)
  else ({ st with cleanupCalled := true }, CleanupOutcome.refError st.inputs)

/-- Pointwise description of the range loop: inside `[lo, hi]` the note is
mapped to `c`, outside the table is untouched. -/
theorem setRange_spec (lo hi c : Int) (t : SplitTable) (n : Int) :
    setRange t lo hi c n = if lo ≤ n ∧ n ≤ hi then some c else t n := by
  induction t, lo, hi, c using setRange.induct with
  | case1 t lo hi c h ih =>
    rw [setRange, if_pos h, ih]
    simp only [tset]
    split_ifs <;> first | rfl | (exfalso; omega)
  | case2 t lo hi c h =>
    rw [setRange, if_neg h, if_neg (by omega)]

/-- One step of the enumeration loop. -/
theorem setEnum_cons (t : SplitTable) (v : JSVal) (vs : List JSVal) (c : Int) :
    setEnum t (v :: vs) c =
      setEnum (match v with | JSVal.vnum m => tset t m c | _ => t) vs c := rfl

/-- Notes not enumerated are untouched by the enumeration loop. -/
theorem setEnum_not_mem (vs : List JSVal) (c : Int) (t : SplitTable) (n : Int)
    (h : JSVal.vnum n ∉ vs) : setEnum t vs c n = t n := by
  induction vs generalizing t with
  | nil => rfl
  | cons v vs ih =>
    rw [setEnum_cons]
    have hv : JSVal.vnum n ≠ v := fun he => h (he ▸ List.mem_cons_self v vs)
    have hvs : JSVal.vnum n ∉ vs := fun hm => h (List.mem_cons_of_mem v hm)
    rw [ih _ hvs]
    match v with
    | JSVal.vnum m =>
      have : n ≠ m := fun he => hv (by rw [he])
      simp [tset, this]
    | JSVal.vnull => rfl
    | JSVal.vundef => rfl
    | JSVal.vbool _ => rfl
    | JSVal.vstr _ => rfl
    | JSVal.varr _ => rfl
    | JSVal.vobj _ => rfl

/-- Every enumerated note is mapped to the definition's channel. -/
theorem setEnum_mem (vs : List JSVal) (c : Int) (t : SplitTable) (n : Int)
    (h : JSVal.vnum n ∈ vs) : setEnum t vs c n = some c := by
  induction vs generalizing t with
  | nil => cases h
  | cons v vs ih =>
    rw [setEnum_cons]
    by_cases hm : JSVal.vnum n ∈ vs
    · exact ih _ hm
    · have hv : v = JSVal.vnum n := by
        rcases List.mem_cons.mp h with h1 | h1
        · exact h1.symm
        · exact absurd h1 hm
      subst hv
      rw [setEnum_not_mem _ _ _ _ hm]
      simp [tset]

/-- A well-formed, valid `range` definition passes validation and runs the
range loop. -/
theorem applyDefn_range (a b c : Int) (t : SplitTable)
    (h1 : 0 ≤ a) (h2 : a ≤ 127) (h3 : 0 ≤ b) (h4 : b ≤ 127)
    (h5 : 1 ≤ c) (h6 : c ≤ 16) (h7 : a ≤ b) :
    applyDefn t (DefSpec.toJS (DefSpec.range a b c)) = setRange t a b c := by
  have he : applyDefn t (DefSpec.toJS (DefSpec.range a b c)) =
      if 0 ≤ a ∧ a ≤ 127 ∧ 0 ≤ b ∧ b ≤ 127 ∧ 1 ≤ c ∧ c ≤ 16 ∧ a ≤ b then
        setRange t a b c
      else t := rfl
  rw [he, if_pos ⟨h1, h2, h3, h4, h5, h6, h7⟩]

/-- A well-formed `enumeration` definition whose validation succeeds runs
the enumeration loop. -/
theorem applyDefn_enum (ms : List Int) (c : Int) (t : SplitTable)
    (h1 : ∀ m ∈ ms, 0 ≤ m ∧ m ≤ 127) (h5 : 1 ≤ c) (h6 : c ≤ 16) :
    applyDefn t (DefSpec.toJS (DefSpec.enum ms c)) =
      setEnum t (ms.map JSVal.vnum) c := by
  have he : applyDefn t (DefSpec.toJS (DefSpec.enum ms c)) =
      if (ms.map JSVal.vnum).all isValidMidiNum ∧ 1 ≤ c ∧ c ≤ 16 then
        setEnum t (ms.map JSVal.vnum) c
      else t := rfl
  rw [he, if_pos]
  refine ⟨?_, h5, h6⟩
  rw [List.all_eq_true]
  intro x hx
  obtain ⟨m, hm, rfl⟩ := List.mem_map.mp hx
  have := h1 m hm
  simp only [isValidMidiNum, Bool.and_eq_true, decide_eq_true_eq]
  omega

/-- Processing a well-formed definition object never throws. -/
theorem processDef_toJS (t : SplitTable) (s : DefSpec) :
    processDef t s.toJS = some (applyDefn t s.toJS) := by
  cases s <;> rfl

/-- The fold underlying `buildSplitTable`, evaluated on a list of
well-formed definition objects. -/
theorem foldlM_processDef_toJS (l : List DefSpec) (t : SplitTable) :
    List.foldlM processDef t (l.map DefSpec.toJS) =
      some (l.foldl (fun acc s => applyDefn acc s.toJS) t) := by
  induction l generalizing t with
  | nil => rfl
  | cons s l ih =>
    rw [List.map_cons, List.foldlM_cons, processDef_toJS]
    exact ih (applyDefn t s.toJS)

/-- `buildSplitTable` on a list of well-formed definition objects succeeds
and folds the definitions in list order. -/
theorem buildSplitTable_specs (l : List DefSpec) :
    buildSplitTable (JSVal.varr (l.map DefSpec.toJS)) =
      some (l.foldl (fun acc s => applyDefn acc s.toJS) emptyTable) := by
  cases l with
  | nil => rfl
  | cons s l =>
    show List.foldlM processDef emptyTable ((s :: l).map DefSpec.toJS) = _
    rw [foldlM_processDef_toJS]

/-- A valid definition covering a note maps that note to its channel,
whatever table it is applied on. -/
theorem applyDefn_covers (s : DefSpec) (t : SplitTable) (n : Int)
    (hv : s.valid) (hc : s.covers n) :
    applyDefn t s.toJS n = some s.channel := by
  cases s with
  | range a b c =>
    obtain ⟨v1, v2, v3, v4, v5⟩ := hv
    obtain ⟨c1, c2⟩ := hc
    rw [applyDefn_range a b c t v1 (by omega) (by omega) v3 v4 v5 v2]
    rw [setRange_spec, if_pos ⟨c1, c2⟩]
    rfl
  | enum ms c =>
    obtain ⟨v1, v5, v6⟩ := hv
    rw [applyDefn_enum ms c t v1 v5 v6]
    rw [setEnum_mem _ _ _ _ (List.mem_map_of_mem JSVal.vnum hc)]
    rfl

/-- The empty table trivially satisfies the channel-range invariant. -/
theorem emptyTable_valid : TableChansValid emptyTable := by
  intro n c h
  cases h

/-- A point update with an in-range channel preserves the invariant. -/
theorem tset_valid (t : SplitTable) (n c : Int) (ht : TableChansValid t)
    (h1 : 1 ≤ c) (h2 : c ≤ 16) : TableChansValid (tset t n c) := by
  intro m ch hm
  simp only [tset] at hm
  by_cases he : m = n
  · rw [if_pos he] at hm
    cases hm
    exact ⟨h1, h2⟩
  · rw [if_neg he] at hm
    exact ht m ch hm

/-- The range loop with an in-range channel preserves the invariant. -/
theorem setRange_valid (t : SplitTable) (lo hi c : Int) (ht : TableChansValid t)
    (h1 : 1 ≤ c) (h2 : c ≤ 16) : TableChansValid (setRange t lo hi c) := by
  intro m ch hm
  rw [setRange_spec] at hm
  by_cases he : lo ≤ m ∧ m ≤ hi
  · rw [if_pos he] at hm
    cases hm
    exact ⟨h1, h2⟩
  · rw [if_neg he] at hm
    exact ht m ch hm

/-- The enumeration loop with an in-range channel preserves the invariant. -/
theorem setEnum_valid (vs : List JSVal) (c : Int) (t : SplitTable)
    (ht : TableChansValid t) (h1 : 1 ≤ c) (h2 : c ≤ 16) :
    TableChansValid (setEnum t vs c) := by
  induction vs generalizing t with
  | nil => exact ht
  | cons v vs ih =>
    rw [setEnum_cons]
    apply ih
    match v with
    | JSVal.vnum m => exact tset_valid t m c ht h1 h2
    | JSVal.vnull => exact ht
    | JSVal.vundef => exact ht
    | JSVal.vbool _ => exact ht
    | JSVal.vstr _ => exact ht
    | JSVal.varr _ => exact ht
    | JSVal.vobj _ => exact ht

/-- Processing any (non-nullish) element preserves the invariant: a
definition is either applied with a validated channel or discarded. -/
theorem applyDefn_valid (t : SplitTable) (d : JSVal) (ht : TableChansValid t) :
    TableChansValid (applyDefn t d) := by
  unfold applyDefn
  split
  · split
    · split
      · next h => exact setRange_valid _ _ _ _ ht (by omega) (by omega)
      · exact ht
    · exact ht
  · split
    · split
      · split
        · next h => exact setEnum_valid _ _ _ ht h.2.1 h.2.2
        · exact ht
      · exact ht
    · exact ht

/-- The fold of `buildSplitTable` preserves the invariant. -/
theorem foldlM_processDef_valid (l : List JSVal) :
    ∀ t t' : SplitTable, TableChansValid t →
      List.foldlM processDef t l = some t' → TableChansValid t' := by
  induction l with
  | nil =>
    intro t t' ht h
    cases h
    exact ht
  | cons d l ih =>
    intro t t' ht h
    rw [List.foldlM_cons] at h
    unfold processDef at h
    by_cases hn : d.isNullish
    · rw [if_pos hn] at h
      cases h
    · rw [if_neg hn] at h
      exact ih _ _ (applyDefn_valid t d ht) h

/-- Every table `buildSplitTable` produces maps notes only to channels in
1–16. -/
theorem buildSplitTable_valid (input : JSVal) (t : SplitTable)
    (h : buildSplitTable input = some t) : TableChansValid t := by
  match input with
  | JSVal.vnull | JSVal.vundef | JSVal.vbool _ | JSVal.vnum _
  | JSVal.vstr _ | JSVal.vobj _ =>
    have h2 : some emptyTable = some t := h
    cases h2
    exact emptyTable_valid
  | JSVal.varr defs =>
    have h2 : (if defs.isEmpty then some emptyTable
        else List.foldlM processDef emptyTable defs) = some t := h
    by_cases he : defs.isEmpty
    · rw [if_pos he] at h2
      cases h2
      exact emptyTable_valid
    · rw [if_neg he] at h2
      exact foldlM_processDef_valid defs emptyTable t emptyTable_valid h2

/-- Writing a four-bit value into the cleared low nibble leaves the high
nibble untouched. -/
theorem nat_nibble (s d : Nat) (hd : d < 16) :
    ((s &&& 240) ||| d) &&& 240 = s &&& 240 := by
  apply Nat.eq_of_testBit_eq
  intro i
  simp only [Nat.testBit_and, Nat.testBit_or]
  by_cases h4 : i < 4
  · have h240 : Nat.testBit 240 i = false := by interval_cases i <;> decide
    simp [h240]
  · have hdbit : Nat.testBit d i = false := by
      apply Nat.testBit_lt_two_pow
      calc d < 16 := hd
        _ ≤ 2 ^ i := by
          have h16 : (16 : Nat) = 2 ^ 4 := by norm_num
          rw [h16]
          exact Nat.pow_le_pow_right (by norm_num) (by omega)
    simp [hdbit]

/-- `Int.land` on nonnegative operands is `Nat.land` on the payloads. -/
theorem int_land_natCast (m n : Nat) :
    Int.land ((m : Nat) : Int) ((n : Nat) : Int) = (((m &&& n : Nat)) : Int) := rfl

/-- `Int.lor` on nonnegative operands is `Nat.lor` on the payloads. -/
theorem int_lor_natCast (m n : Nat) :
    Int.lor ((m : Nat) : Int) ((n : Nat) : Int) = (((m ||| n : Nat)) : Int) := rfl

/-- Branch-level characterization of `transformMidiSrc`: the message is
rewritten exactly when the status byte lies in the Note On/Off range
`[128, 159]` and the note has a table entry; `mustSplitByChannel` of the
source reduces to that status interval because a fake Note Off is in
particular a Note On. -/
theorem transformMidiSrc_eq (t : SplitTable) (dt s n v : Int) :
    transformMidiSrc t dt (s, n, v) =
      if 128 ≤ s ∧ s ≤ 159 then
        match t n with
        | some c => (Int.lor (Int.land s 0xf0) (c - 1), n, v)
        | none => (s, n, v)
      else (s, n, v) := by
  unfold transformMidiSrc
  by_cases h : 128 ≤ s ∧ s ≤ 159
  · rw [if_pos h]
    rw [if_pos]
    simp only [Bool.or_eq_true, Bool.and_eq_true, decide_eq_true_eq]
    omega
  · rw [if_neg h, if_neg]
    simp only [Bool.or_eq_true, Bool.and_eq_true, decide_eq_true_eq]
    omega

/-- The escape/replace pipeline processes the pattern character by
character, emitting `encodeChar` for each. -/
theorem pipeline_cons (c : Char) (cs : List Char) :
    replaceStar (replaceQ (escapeSpecials (c :: cs))) =
      encodeChar c ++ replaceStar (replaceQ (escapeSpecials cs)) := by
  by_cases hs : c ∈ specials
  · simp only [specials, List.mem_cons, List.not_mem_nil, or_false] at hs
    rcases hs with rfl | rfl | rfl | rfl | rfl | rfl | rfl | rfl | rfl | rfl | rfl | rfl <;>
      rfl
  · by_cases hq : c = '?'
    · subst hq
      rfl
    · by_cases hst : c = '*'
      · subst hst
        rfl
      · simp [escapeSpecials, replaceQ, replaceStar, encodeChar, hs, hq, hst]

/-- Each pattern character contributes a nonempty chunk that never starts
with `*`: escapes start with a backslash, wildcard replacements with a
dot, and a literal `*` never survives the replacements. -/
theorem encodeChar_shape (c : Char) :
    ∃ hd tl, encodeChar c = hd :: tl ∧ hd ≠ '*' := by
  unfold encodeChar
  split_ifs with h1 h2 h3
  · exact ⟨'\\', [c], rfl, by decide⟩
  · exact ⟨'.', [], rfl, by decide⟩
  · exact ⟨'.', ['*'], rfl, by decide⟩
  · exact ⟨c, [], rfl, h3⟩

/-- The regex source string built by the pipeline never starts with `*`. -/
theorem pipeline_head_ne_star (cs : List Char) (d : Char) (r : List Char)
    (h : replaceStar (replaceQ (escapeSpecials cs)) = d :: r) : d ≠ '*' := by
  cases cs with
  | nil => cases h
  | cons c cs =>
    rw [pipeline_cons] at h
    obtain ⟨hd, tl, he, hne⟩ := encodeChar_shape c
    rw [he] at h
    cases h
    exact hne

/-- Unfolding equation: an escaped character parses as a literal. -/
theorem parseRegex_bs (c : Char) (rest : List Char) :
    parseRegex ('\\' :: c :: rest) = RTok.lit c :: parseRegex rest := rfl

/-- Unfolding equation: a final lone dot parses as a single-character
wildcard. -/
theorem parseRegex_dot_nil : parseRegex ['.'] = [RTok.anyOne] := rfl

/-- Unfolding equation: `.*` parses as the any-sequence token. -/
theorem parseRegex_dot_star (rest : List Char) :
    parseRegex ('.' :: '*' :: rest) = RTok.anyMany :: parseRegex rest := rfl

/-- Unfolding equation: a dot not followed by `*` parses as a
single-character wildcard. -/
theorem parseRegex_dot (d : Char) (rest : List Char) (hd : d ≠ '*') :
    parseRegex ('.' :: d :: rest) = RTok.anyOne :: parseRegex (d :: rest) := by
  have he : parseRegex ('.' :: d :: rest) =
      if d = '*' then RTok.anyMany :: parseRegex rest
      else RTok.anyOne :: parseRegex (d :: rest) := rfl
  rw [he, if_neg hd]

/-- Unfolding equation: any other character parses as itself. -/
theorem parseRegex_lit (c : Char) (rest : List Char)
    (h1 : c ≠ '\\') (h2 : c ≠ '.') :
    parseRegex (c :: rest) = RTok.lit c :: parseRegex rest := by
  cases rest with
  | nil => rw [parseRegex.eq_2, if_neg h1, if_neg h2]
  | cons d r => rw [parseRegex.eq_3, if_neg h1, if_neg h2]

/-- Parsing the pipeline's output recovers exactly one token per pattern
character. -/
theorem parse_pipeline (cs : List Char) :
    parseRegex (replaceStar (replaceQ (escapeSpecials cs))) = cs.map tokOf := by
  induction cs with
  | nil => rfl
  | cons c cs ih =>
    rw [pipeline_cons, List.map_cons]
    by_cases hs : c ∈ specials
    · have he : encodeChar c = ['\\', c] := by
        unfold encodeChar
        rw [if_pos hs]
      have hq : c ≠ '?' := by
        intro hc
        subst hc
        exact absurd hs (by decide)
      have hst : c ≠ '*' := by
        intro hc
        subst hc
        exact absurd hs (by decide)
      rw [he, List.cons_append, List.cons_append, List.nil_append]
      rw [parseRegex_bs, ih]
      simp only [tokOf, if_neg hq, if_neg hst]
    · by_cases hq : c = '?'
      · subst hq
        have he : encodeChar '?' = ['.'] := rfl
        rw [he, List.cons_append, List.nil_append]
        cases hrest : replaceStar (replaceQ (escapeSpecials cs)) with
        | nil =>
          have hmap : cs.map tokOf = [] := by rw [← ih, hrest]; rfl
          rw [hmap, parseRegex_dot_nil]
          rfl
        | cons d r =>
          have hd : d ≠ '*' := pipeline_head_ne_star cs d r hrest
          rw [parseRegex_dot d r hd, ← hrest, ih]
          rfl
      · by_cases hst : c = '*'
        · subst hst
          have he : encodeChar '*' = ['.', '*'] := rfl
          rw [he, List.cons_append, List.cons_append, List.nil_append]
          rw [parseRegex_dot_star, ih]
          rfl
        · have he : encodeChar c = [c] := by
            unfold encodeChar
            rw [if_neg hs, if_neg hq, if_neg hst]
          have hbs : c ≠ '\\' := by
            intro hc
            subst hc
            exact hs (by decide)
          have hdot : c ≠ '.' := by
            intro hc
            subst hc
            exact hs (by decide)
          rw [he, List.cons_append, List.nil_append]
          rw [parseRegex_lit c _ hbs hdot, ih]
          simp only [tokOf, if_neg hq, if_neg hst]

/-- `rmatchMany` only depends on the continuation's values. -/
theorem rmatchMany_congr (f g : List Char → Bool)
    (h : ∀ x, f x = g x) (cs : List Char) :
    rmatchMany f cs = rmatchMany g cs := by
  induction cs with
  | nil => exact h []
  | cons c cs ih => simp only [rmatchMany, h, ih]

/-- The compiled token matcher agrees with the direct wildcard semantics:
one token per pattern character, literal characters match themselves,
`?` is the single-character wildcard, `*` the any-sequence wildcard. -/
theorem rmatchB_map_tokOf (ps cs : List Char) :
    rmatchB (ps.map tokOf) cs = specWildMatch ps cs := by
  induction ps generalizing cs with
  | nil => cases cs <;> rfl
  | cons p ps ih =>
    by_cases hq : p = '?'
    · subst hq
      have ht : tokOf '?' = RTok.anyOne := rfl
      rw [List.map_cons, ht]
      cases cs with
      | nil => rfl
      | cons c cs' =>
        show (isDotChar c && rmatchB (ps.map tokOf) cs') = _
        rw [ih]
        rfl
    · by_cases hst : p = '*'
      · subst hst
        have ht : tokOf '*' = RTok.anyMany := rfl
        rw [List.map_cons, ht]
        show rmatchMany (rmatchB (ps.map tokOf)) cs = specWildMatch ('*' :: ps) cs
        have hsw : specWildMatch ('*' :: ps) cs =
            rmatchMany (specWildMatch ps) cs := by
          cases cs with
          | nil => rw [specWildMatch.eq_2, if_neg (by decide), if_pos rfl]
          | cons d ds => rw [specWildMatch.eq_3, if_neg (by decide), if_pos rfl]
        rw [hsw]
        exact rmatchMany_congr _ _ ih cs
      · have ht : tokOf p = RTok.lit p := by
          unfold tokOf
          rw [if_neg hq, if_neg hst]
        rw [List.map_cons, ht]
        cases cs with
        | nil => rw [specWildMatch.eq_2, if_neg hq, if_neg hst]; rfl
        | cons c cs' =>
          rw [specWildMatch.eq_3, if_neg hq, if_neg hst]
          show (p == c && rmatchB (ps.map tokOf) cs') = _
          rw [ih]

/-- If the continuation matches the whole candidate, the star may match
the empty sequence and succeed immediately. -/
theorem rmatchMany_of_direct (f : List Char → Bool) (cs : List Char)
    (h : f cs = true) : rmatchMany f cs = true := by
  cases cs with
  | nil => exact h
  | cons c cs' =>
    show (f (c :: cs') || _) = true
    rw [h]
    rfl

/-- Every string, used as a pattern, matches itself: escaped specials
match literally, `?` matches the `?` character, `*` matches the `*`
character (as part of "any sequence"). -/
theorem selfMatch (cs : List Char) : rmatchB (cs.map tokOf) cs = true := by
  induction cs with
  | nil => rfl
  | cons c cs ih =>
    by_cases hq : c = '?'
    · subst hq
      have ht : tokOf '?' = RTok.anyOne := rfl
      rw [List.map_cons, ht]
      show (isDotChar '?' && rmatchB (cs.map tokOf) cs) = true
      rw [ih]
      rfl
    · by_cases hst : c = '*'
      · subst hst
        have ht : tokOf '*' = RTok.anyMany := rfl
        rw [List.map_cons, ht]
        show rmatchMany (rmatchB (cs.map tokOf)) ('*' :: cs) = true
        show (rmatchB (cs.map tokOf) ('*' :: cs) ||
          (isDotChar '*' && rmatchMany (rmatchB (cs.map tokOf)) cs)) = true
        rw [rmatchMany_of_direct _ _ ih]
        simp
        exact Or.inr (by decide)
      · have ht : tokOf c = RTok.lit c := by
          unfold tokOf
          rw [if_neg hq, if_neg hst]
        rw [List.map_cons, ht]
        show (c == c && rmatchB (cs.map tokOf) cs) = true
        rw [ih, beq_self_eq_true]
        rfl

/-- The output search loop leaves `vOutPortIndex` at its initial value
when no port name equals the target. -/
theorem findOutputIndexAux_no_match (target : String) :
    ∀ (l : List String) (i : Nat) (acc : Option Nat),
      (∀ name ∈ l, name ≠ target) → findOutputIndexAux target i acc l = acc := by
  intro l
  induction l with
  | nil => intro i acc _; rfl
  | cons name rest ih =>
    intro i acc h
    have hn : name ≠ target := h name (List.mem_cons_self name rest)
    show findOutputIndexAux target (i + 1)
      (if name == target then some i else acc) rest = acc
    rw [if_neg (fun hb => hn (eq_of_beq hb))]
    exact ih (i + 1) acc (fun x hx => h x (List.mem_cons_of_mem name hx))

/-- Every non-nullish prefix of definitions folds to a defined table. -/
theorem foldlM_processDef_some (l : List JSVal) :
    ∀ t : SplitTable, (∀ e ∈ l, e.isNullish = false) →
      ∃ t', List.foldlM processDef t l = some t' := by
  induction l with
  | nil => intro t _; exact ⟨t, rfl⟩
  | cons d l ih =>
    intro t h
    have hd : d.isNullish = false := h d (List.mem_cons_self d l)
    have hpd : processDef t d = some (applyDefn t d) := by
      unfold processDef
      rw [hd]
      rfl
    rw [List.foldlM_cons, hpd]
    obtain ⟨t', ht'⟩ := ih (applyDefn t d) (fun e he => h e (List.mem_cons_of_mem d he))
    exact ⟨t', ht'⟩

/-- C1: for every split table and every channel-splittable message
(status in [128, 159]) whose note has a table entry, `transformMidiSrc`
returns the message whose status byte is the original status with its low
nibble cleared and OR-ed with `table[note] - 1`, while note and velocity
are returned verbatim. -/
theorem C1_channel_rewrite (tbl : SplitTable) (dt s n v ch : Int)
    (h1 : 128 ≤ s) (h2 : s ≤ 159) (hc : tbl n = some ch) :
    transformMidiSrc tbl dt (s, n, v) =
      (Int.lor (Int.land s 0xf0) (ch - 1), n, v) := by
  rw [transformMidiSrc_eq, if_pos ⟨h1, h2⟩, hc]

/-- C1 witness: with `table[60] = 3`, the Note On `(144, 60, 100)` is
rewritten to `(146, 60, 100)`. -/
theorem C1_channel_rewrite_witness :
    transformMidiSrc (tset emptyTable 60 3) 0 (144, 60, 100) = (146, 60, 100) := by
  rw [C1_channel_rewrite (tset emptyTable 60 3) 0 144 60 100 3
    (by decide) (by decide) rfl]
  decide

/-- C2: compiling a singleton list holding one valid `range` definition
`{midiFrom a, midiTo b, channel c}` yields a table mapping every note in
`[a, b]` to `c` and holding no entry for any note outside `[a, b]`. -/
theorem C2_range_compile (a b c : Int) (h1 : 0 ≤ a) (h2 : a ≤ b)
    (h3 : b ≤ 127) (h4 : 1 ≤ c) (h5 : c ≤ 16) :
    ∃ tbl, buildSplitTable (JSVal.varr [DefSpec.toJS (DefSpec.range a b c)]) =
        some tbl ∧
      (∀ n, a ≤ n → n ≤ b → tbl n = some c) ∧
      (∀ n, n < a ∨ b < n → tbl n = none) := by
  refine ⟨setRange emptyTable a b c, ?_, ?_, ?_⟩
  · have hb := buildSplitTable_specs [DefSpec.range a b c]
    simp only [List.map_cons, List.map_nil, List.foldl_cons, List.foldl_nil] at hb
    rw [applyDefn_range a b c emptyTable h1 (by omega) (by omega) h3 h4 h5 h2] at hb
    exact hb
  · intro n hn1 hn2
    rw [setRange_spec, if_pos ⟨hn1, hn2⟩]
  · intro n hn
    rw [setRange_spec, if_neg (by omega)]
    rfl

/-- C2 witness: the range 60–63 to channel 3, checked inside and outside
the range. -/
theorem C2_range_compile_witness :
    ∃ tbl, buildSplitTable (JSVal.varr [DefSpec.toJS (DefSpec.range 60 63 3)]) =
        some tbl ∧
      tbl 61 = some 3 ∧ tbl 59 = none ∧ tbl 64 = none := by
  obtain ⟨tbl, hb, hin, hout⟩ :=
    C2_range_compile 60 63 3 (by decide) (by decide) (by decide) (by decide) (by decide)
  exact ⟨tbl, hb, hin 61 (by decide) (by decide), hout 59 (by decide),
    hout 64 (by decide)⟩

/-- C3: last-writer-wins — for any two valid definitions both covering a
note `n`, compiling `[d1, d2]` maps `n` to `d2`'s channel. -/
theorem C3_overwrite (d1 d2 : DefSpec) (n : Int)
    (hv1 : d1.valid) (hv2 : d2.valid) (hc1 : d1.covers n) (hc2 : d2.covers n) :
    ∃ tbl, buildSplitTable (JSVal.varr [d1.toJS, d2.toJS]) = some tbl ∧
      tbl n = some d2.channel := by
  refine ⟨applyDefn (applyDefn emptyTable d1.toJS) d2.toJS, ?_, ?_⟩
  · have hb := buildSplitTable_specs [d1, d2]
    simpa using hb
  · exact applyDefn_covers d2 _ n hv2 hc2

/-- C3 witness: the enumeration `[61, 62] → 2` overrides the earlier range
60–63 → 3 at note 61. -/
theorem C3_overwrite_witness :
    ∃ tbl, buildSplitTable (JSVal.varr [DefSpec.toJS (DefSpec.range 60 63 3),
        DefSpec.toJS (DefSpec.enum [61, 62] 2)]) = some tbl ∧
      tbl 61 = some 2 := by
  have h := C3_overwrite (DefSpec.range 60 63 3) (DefSpec.enum [61, 62] 2) 61
    (by constructor <;> decide) (by constructor <;> decide)
    (by constructor <;> decide)
    (by show (61 : Int) ∈ ([61, 62] : List Int); decide)
  exact h

/-- C4 counterexample: the claim says `buildSplitTable` never throws on
any input, but a list containing `null` makes the `forEach` body read
`definition.type` on `null`, which throws a TypeError (modelled as
`none`): no table is produced. -/
theorem C4_counterexample : buildSplitTable (JSVal.varr [JSVal.vnull]) = none := rfl

/-- C4 (amended): `buildSplitTable` yields the empty table on any
non-list input, processes every non-`null`/`undefined` element without
throwing (applying it if valid, discarding it otherwise), and produces a
table on every list whose elements are all non-nullish. -/
theorem C4_no_throw_amended :
    (∀ input : JSVal, (∀ l, input ≠ JSVal.varr l) →
      buildSplitTable input = some emptyTable) ∧
    (∀ (t : SplitTable) (d : JSVal), d.isNullish = false →
      processDef t d = some (applyDefn t d)) ∧
    (∀ l : List JSVal, (∀ e ∈ l, e.isNullish = false) →
      ∃ t, buildSplitTable (JSVal.varr l) = some t) := by
  refine ⟨?_, ?_, ?_⟩
  · intro input h
    match input with
    | JSVal.varr l => exact absurd rfl (h l)
    | JSVal.vnull => rfl
    | JSVal.vundef => rfl
    | JSVal.vbool _ => rfl
    | JSVal.vnum _ => rfl
    | JSVal.vstr _ => rfl
    | JSVal.vobj _ => rfl
  · intro t d hd
    unfold processDef
    rw [hd]
    rfl
  · intro l hl
    show ∃ t, (if l.isEmpty then some emptyTable
      else List.foldlM processDef emptyTable l) = some t
    by_cases he : l.isEmpty
    · rw [if_pos he]
      exact ⟨emptyTable, rfl⟩
    · rw [if_neg he]
      exact foldlM_processDef_some l emptyTable hl

/-- C4 witness: a string input degrades to the empty table; a list whose
elements are malformed but not nullish still compiles to a table. -/
theorem C4_no_throw_amended_witness :
    buildSplitTable (JSVal.vstr "not a list") = some emptyTable ∧
    (∃ t, buildSplitTable
      (JSVal.varr [JSVal.vstr "not a list", JSVal.vbool true]) = some t) := by
  constructor
  · exact C4_no_throw_amended.1 (JSVal.vstr "not a list")
      (fun l h => JSVal.noConfusion h)
  · exact C4_no_throw_amended.2.2 [JSVal.vstr "not a list", JSVal.vbool true]
      (by decide)

/-- C5: feedback prevention — the admission decision for a port whose
name equals the virtual output name is false for every name and every
(possibly empty) user exclusion list, because `main.js` prepends the
virtual output name to the exclusion patterns and any string, read as a
wildcard pattern, matches itself. -/
theorem C5_feedback_prevention (vname : String) (patterns : List String) :
    shouldAttach vname vname patterns = false := by
  unfold shouldAttach isExcluded
  have hself : regexTest (wildcardToRegex vname) vname = true := by
    unfold regexTest wildcardToRegex
    rw [parse_pipeline]
    exact selfMatch vname.toList
  rw [List.any_cons, hself]
  rfl

/-- C6 counterexample: the claim reads `?` as matching exactly one
arbitrary character, but the`.` JavaScript compiles it to does not match
a line terminator, so the pattern `"?"` fails on the candidate `"\n"`. -/
theorem C6_counterexample : wildcardMatches "?" "\n" = false := by decide

/-- C6 (amended): the wildcard matcher matches the pattern against the
entire candidate, with `?` matching exactly one character other than a
line terminator, `*` matching zero or more such characters, and every
other character matching itself literally (escaping makes regex
metacharacters inert); it is total, and the three reference examples
hold. -/
theorem C6_wildcard_semantics :
    (∀ pattern candidate : String,
      wildcardMatches pattern candidate =
        specWildMatch pattern.toList candidate.toList) ∧
    wildcardMatches "Akai*" "Akai MPK Mini" = true ∧
    wildcardMatches "Alesis V??" "Alesis V61" = true ∧
    wildcardMatches "Alesis V??" "Alesis V6" = false := by
  refine ⟨?_, by decide, by decide, by decide⟩
  intro p c
  unfold wildcardMatches regexTest wildcardToRegex
  rw [parse_pipeline, rmatchB_map_tokOf]

/-- C7: pass-through — a message whose status byte lies outside
[128, 159] is returned unchanged by `transformMidiSrc`, whatever the
table holds. -/
theorem C7_passthrough (tbl : SplitTable) (dt s n v : Int)
    (h : s < 128 ∨ 159 < s) :
    transformMidiSrc tbl dt (s, n, v) = (s, n, v) := by
  rw [transformMidiSrc_eq, if_neg (by omega)]

/-- C7 witness: a control change (status 176) passes through a table that
does cover its note. -/
theorem C7_passthrough_witness :
    transformMidiSrc (tset emptyTable 60 3) 0 (176, 60, 100) = (176, 60, 100) :=
  C7_passthrough (tset emptyTable 60 3) 0 176 60 100 (by decide)

/-- C8: when no output port's name equals the configured virtual output
name, `execute` opens or attaches nothing and the process terminates with
the configuration-error exit code 2; conversely, any input-port opening
in the action trace can only occur after the output port was opened (in
this revision `execute` throws right after opening the output, so no
input is ever opened at all). -/
theorem C8_fatal_output (env : MidiEnv) (cfg : Config) :
    (cfg.virtualOutputName ∉ env.outputPorts →
      execute env cfg = ([], ExecOutcome.exited 2)) ∧
    (∀ (i : Nat) (pre post : List PortAction),
      (execute env cfg).1 = pre ++ PortAction.openInput i :: post →
      ∃ j, PortAction.openOutput j ∈ pre) := by
  constructor
  · intro h
    unfold execute findOutputIndex
    rw [findOutputIndexAux_no_match cfg.virtualOutputName env.outputPorts 0 none
      (fun name hm he => h (he ▸ hm))]
  · intro i pre post heq
    unfold execute at heq
    cases hf : findOutputIndex env.outputPorts cfg.virtualOutputName with
    | none =>
      rw [hf] at heq
      exact absurd heq.symm (by simp)
    | some j =>
      rw [hf] at heq
      cases pre with
      | nil => simp at heq
      | cons a pre' =>
        rw [List.cons_append] at heq
        have h1 : PortAction.openOutput j = a ∧
            ([] : List PortAction) = pre' ++ PortAction.openInput i :: post :=
          List.cons.inj heq
        exact absurd h1.2.symm (by simp)

/-- C8 witness: a concrete environment without the configured output port
exits with code 2 and an empty action trace. -/
theorem C8_fatal_output_witness :
    execute ⟨["Speakers", "MIDI Thru"], ["Keyboard"]⟩
      ⟨"MIDI Interceptor Output", []⟩ = ([], ExecOutcome.exited 2) :=
  (C8_fatal_output ⟨["Speakers", "MIDI Thru"], ["Keyboard"]⟩
    ⟨"MIDI Interceptor Output", []⟩).1 (by decide)

/-- C9: evaluation of `cleanup` at the failing input — flag clear, two
attached inputs.  The first call closes the inputs and then throws a
ReferenceError at `output.closePort()` (`utils.js` never declares
`output`, and the `setOutput` setter `main.js` imports from it is not
exported), so the output port is never closed; the second call is
absorbed by the `cleanupCalled` flag.  This contradicts the claim (and
§4.5 of the design), which requires shutdown to close every input *and
then the output port*. -/
theorem C9_cleanup_code_bug :
    cleanup ⟨false, [0, 1]⟩ =
      (⟨true, [0, 1]⟩, CleanupOutcome.refError [0, 1]) ∧
    (cleanup (cleanup ⟨false, [0, 1]⟩).1).2 = CleanupOutcome.skipped := by
  constructor <;> rfl

/-- C10: message-kind preservation — for every table produced by
`buildSplitTable` and every message, the status byte of
`transformMidiSrc`'s result agrees with the input status byte on the high
nibble (`status & 0xF0`): every channel the compiler admits lies in 1–16,
so `channel - 1` fits in the low nibble. -/
theorem C10_kind_preserved (input : JSVal) (tbl : SplitTable)
    (hb : buildSplitTable input = some tbl) (dt s n v : Int) :
    Int.land (transformMidiSrc tbl dt (s, n, v)).1 0xf0 = Int.land s 0xf0 := by
  have hval := buildSplitTable_valid input tbl hb
  rw [transformMidiSrc_eq]
  by_cases h : 128 ≤ s ∧ s ≤ 159
  · rw [if_pos h]
    cases ht : tbl n with
    | none => rfl
    | some c =>
      obtain ⟨hc1, hc2⟩ := hval n c ht
      show Int.land (Int.lor (Int.land s 0xf0) (c - 1)) 0xf0 = Int.land s 0xf0
      have hs0 : 0 ≤ s := by omega
      have hs' : s = ((s.toNat : Nat) : Int) := (Int.toNat_of_nonneg hs0).symm
      have hcm : c - 1 = ((c.toNat - 1 : Nat) : Int) := by omega
      have h240 : (0xf0 : Int) = ((240 : Nat) : Int) := rfl
      rw [hs', hcm, h240, int_land_natCast, int_lor_natCast, int_land_natCast]
      rw [nat_nibble s.toNat (c.toNat - 1) (by omega)]
  · rw [if_neg h]

/-- C10 witness: the table compiled from the range 60–63 to channel 3
keeps the Note On high nibble of status 144. -/
theorem C10_kind_preserved_witness :
    Int.land (transformMidiSrc (setRange emptyTable 60 63 3) 0 (144, 60, 100)).1
      0xf0 = Int.land 144 0xf0 :=
  C10_kind_preserved (JSVal.varr [DefSpec.toJS (DefSpec.range 60 63 3)])
    (setRange emptyTable 60 63 3) rfl 0 144 60 100
